import Mathlib

/-! TF-IDF profile matching: a shallow embedding of `Unstop Talent.cpp`.

The development follows the single source file `src/public/Unstop Talent.cpp`:

* `TFIDFVectorizer.tokenize`   (lines 52-69)
* `TFIDFVectorizer.new`, the constructor `TFIDFVectorizer::TFIDFVectorizer` (lines 19-29)
* `TFIDFVectorizer.transform`  (lines 31-49)
* `cosine_similarity`          (lines 73-89)

Modelling conventions.

* A `std::string` is a list of characters, `Str`.
* A `std::vector<T>` is a `List T`; `push_back` appends at the end.
* A `std::unordered_map<std::string, int>` is an association list `UMap` with
  at most one entry per key.  `UMap.find` is `find`/`at`, `UMap.update` is
  `operator[]` followed by a change of the referenced value.  A new key is
  appended at the end, and a range-for over the map visits the entries in
  list order (insertion order).
* `size_t` and `int` values (sizes, indices, counts) are natural numbers; the
  containers are assumed to hold fewer than `2^31` entries, so that no
  conversion between `size_t` and `int` wraps.
* `double` arithmetic is kept abstract: the numeric functions are written
  over an arbitrary field `α`, with the libm functions `log` and `sqrt`
  passed as arguments.  The theorems read the arithmetic over the reals,
  with `Real.log` and `Real.sqrt`.
* A C++ exception (`std::out_of_range` from `unordered_map::at`) is the
  value `Error.out_of_range`.  An unchecked `operator[]` access of a vector
  past its end is undefined behaviour in the source: the model stops there
  with the marker `Error.undefined_behaviour`, which stands for "the source
  defines no result", not for a failure the program reports.
* Rounding of `double` operations is outside the model: a property that
  depends on it is not stated here.
-/

/-- A `std::string`. -/
abbrev Str := List Char

/-- The ways a call can leave its normal path: `unordered_map::at` on a
missing key throws `std::out_of_range`; an unchecked `operator[]` of a vector
past its end is undefined behaviour, for which the source defines no
result. -/
inductive Error where
  | out_of_range
  | undefined_behaviour
  deriving DecidableEq, Repr

/-- A `std::unordered_map<std::string, int>` as an association list. -/
abbrev UMap := List (Str × Nat)

/-- The lookup `m.find(key)`: the mapped value, or `none` for `m.end()`. -/
def UMap.find : UMap → Str → Option Nat
  | [], _ => none
  | (k, v) :: m, key => if key = k then some v else UMap.find m key

/-- The access `m[key]` followed by the change `f` of the referenced value: a
missing key is first inserted with the value-initialised `0`. -/
def UMap.update : UMap → Str → (Nat → Nat) → UMap
  | [], key, f => [(key, f 0)]
  | (k, v) :: m, key, f =>
    if key = k then (k, f v) :: m else (k, v) :: UMap.update m key f

/-- The data members of `class TFIDFVectorizer` (lines 16-17). -/
structure TFIDFVectorizer where
  vocabulary : List Str
  word_to_index : UMap
  deriving DecidableEq, Repr

/-- The test `c == ' ' || c == '.' || c == ','` of line 56. -/
def isSeparator (c : Char) : Bool :=
  c == ' ' || c == '.' || c == ','

/-- The loop of `tokenize` (lines 55-64) over the remaining characters, with
the local variables `tokens` and `token` as state, followed by the final
flush of lines 65-68. -/
def tokenizeLoop : List Char → List Str → Str → List Str
  | [], tokens, token =>
    if !token.isEmpty then tokens ++ [token] else tokens
  | c :: cs, tokens, token =>
    if isSeparator c then
      if !token.isEmpty then tokenizeLoop cs (tokens ++ [token]) []
      else tokenizeLoop cs tokens token
    else tokenizeLoop cs tokens (token ++ [c])

/-- The method `TFIDFVectorizer::tokenize` (lines 52-69); it reads no data
member. -/
def TFIDFVectorizer.tokenize (profile : Str) : List Str :=
  tokenizeLoop profile [] []

/-- The body of the inner constructor loop (lines 23-26) for one `word`. -/
def addWord (self : TFIDFVectorizer) (word : Str) : TFIDFVectorizer :=
  if self.word_to_index.find word = none then
    { vocabulary := self.vocabulary ++ [word]
      word_to_index := self.word_to_index.update word (fun _ => self.vocabulary.length) }
  else self

/-- The body of the outer constructor loop (lines 21-28) for one `profile`. -/
def addProfile (self : TFIDFVectorizer) (profile : Str) : TFIDFVectorizer :=
  (TFIDFVectorizer.tokenize profile).foldl addWord self

/-- The constructor `TFIDFVectorizer::TFIDFVectorizer` (lines 19-29), named
`new` here because the class name is taken by the structure; both members
start empty. -/
def TFIDFVectorizer.new (profiles : List Str) : TFIDFVectorizer :=
  profiles.foldl addProfile { vocabulary := [], word_to_index := [] }

/-- The struct `TFIDFVector` (lines 9-11). -/
structure TFIDFVector (α : Type) where
  tfidf_values : List α

/-- The statement `term_frequency[word]++` of line 38. -/
def countWord (term_frequency : UMap) (word : Str) : UMap :=
  term_frequency.update word (fun n => n + 1)

/-- The body of the second loop of `transform` (lines 43-45) for one entry
`pair` of `term_frequency`; `size` is `term_frequency.size()`.  The call
`word_to_index.at` throws when the key is missing, and the write on line 45
is in bounds only when the index is below the length of the vector; past
the end it is undefined behaviour. -/
def tfidfStep {α : Type} [Field α] (log : α → α) (self : TFIDFVectorizer) (size : Nat)
    (tfidf_values : List α) (pair : Str × Nat) : Except Error (List α) :=
  let tf : α := (pair.2 : α) / (size : α)
  match self.word_to_index.find pair.1 with
  | none => Except.error Error.out_of_range
  | some index =>
    let idf : α := log ((self.vocabulary.length : α) / ((index + 1 : Nat) : α))
    if index < tfidf_values.length then Except.ok (tfidf_values.set index (tf * idf))
    else Except.error Error.undefined_behaviour

/-- The second loop of `transform` (lines 42-46) over the entries of
`term_frequency` that remain to be visited. -/
def tfidfLoop {α : Type} [Field α] (log : α → α) (self : TFIDFVectorizer) (size : Nat) :
    List (Str × Nat) → List α → Except Error (List α)
  | [], tfidf_values => Except.ok tfidf_values
  | pair :: rest, tfidf_values =>
    match tfidfStep log self size tfidf_values pair with
    | Except.error e => Except.error e
    | Except.ok written => tfidfLoop log self size rest written

/-- The method `TFIDFVectorizer::transform` (lines 31-49). -/
def TFIDFVectorizer.transform {α : Type} [Field α] (log : α → α) (self : TFIDFVectorizer)
    (profile : Str) : Except Error (TFIDFVector α) :=
  let tfidf_values : List α := List.replicate self.vocabulary.length 0
  let term_frequency : UMap := (TFIDFVectorizer.tokenize profile).foldl countWord []
  match tfidfLoop log self term_frequency.length term_frequency tfidf_values with
  | Except.error e => Except.error e
  | Except.ok written => Except.ok { tfidf_values := written }

/-- The loop of `cosine_similarity` (lines 78-82): the index runs over the
entries of `v1`, the state is `(dot_product, norm_v1, norm_v2)`.  Entries
of `v2` beyond the length of `v1` are never read.  When `v1` is the longer
vector, line 79 reads `v2` past its end with an unchecked `operator[]`:
undefined behaviour, for which the model gives no score. -/
def cosineLoop {α : Type} [Field α] : List α → List α → α × α × α → Except Error (α × α × α)
  | [], _, acc => Except.ok acc
  | _ :: _, [], _ => Except.error Error.undefined_behaviour
  | x :: xs, y :: ys, (dot_product, norm_v1, norm_v2) =>
    cosineLoop xs ys (dot_product + x * y, norm_v1 + x ^ 2, norm_v2 + y ^ 2)

/-- The function `cosine_similarity` (lines 73-89). -/
def cosine_similarity {α : Type} [Field α] [DecidableEq α] (sqrt : α → α)
    (v1 v2 : TFIDFVector α) : Except Error α :=
  match cosineLoop v1.tfidf_values v2.tfidf_values (0, 0, 0) with
  | Except.error e => Except.error e
  | Except.ok (dot_product, norm_v1, norm_v2) =>
    if norm_v1 = 0 ∨ norm_v2 = 0 then Except.ok 0
    else Except.ok (dot_product / (sqrt norm_v1 * sqrt norm_v2))

/-- The vector `user_profiles` of `main` (lines 93-96). -/
def user_profiles : List Str :=
  ["Experienced software developer with expertise in Python and machine learning, seeking remote positions.".toList,
   "Recent graduate with a degree in finance and strong analytical skills, looking for entry-level positions in banking.".toList]

/-- The vector `employer_profiles` of `main` (lines 98-101). -/
def employer_profiles : List Str :=
  ["Tech startup seeking skilled developers with experience in web development and cloud computing.".toList,
   "Financial institution looking for motivated graduates with a background in finance and a willingness to learn.".toList]

/-- Splitting a text at every separator character and discarding the empty
pieces: the wording of the specification of `tokenize`, on the library
function `List.splitOnP`. -/
def splitAtSeparators (text : Str) : List Str :=
  (text.splitOnP (fun c => decide (c = ' ' ∨ c = '.' ∨ c = ','))).filter
    (fun piece => decide (piece ≠ []))

/-- A list of tokens with every occurrence of a token after its first
removed: the wording of the specification of the vocabulary. -/
def removeRepeats : List Str → List Str
  | [] => []
  | w :: ws => w :: (removeRepeats ws).filter (fun x => decide (x ≠ w))

/-- The invariant of the class: the vocabulary has no duplicates, and
`word_to_index` maps a word to `i` exactly when the word is entry `i` of the
vocabulary. -/
def Consistent (self : TFIDFVectorizer) : Prop :=
  self.vocabulary.Nodup ∧
    ∀ (w : Str) (i : Nat), self.word_to_index.find w = some i ↔ self.vocabulary[i]? = some w

/-- The object under construction after `k` executions of the body of the
inner loop of the constructor (lines 23-26): the first `k` tokens of the
reference documents, in scan order, have been handled. -/
def constructorState (profiles : List Str) (k : Nat) : TFIDFVectorizer :=
  (((profiles.map TFIDFVectorizer.tokenize).flatten).take k).foldl addWord
    { vocabulary := [], word_to_index := [] }

/-- The relation between `vocabulary` and `word_to_index` in the wording of
the specification: the keys of the map are the entries of the vocabulary,
the map sends entry `i` of the vocabulary to `i`, every key has one entry,
the map is injective, and every index is below the size of the
vocabulary. -/
def IndexInvariant (self : TFIDFVectorizer) : Prop :=
  (∀ w : Str, w ∈ self.word_to_index.map Prod.fst ↔ w ∈ self.vocabulary)
    ∧ (∀ (i : Nat) (h : i < self.vocabulary.length),
        self.word_to_index.find (self.vocabulary.get ⟨i, h⟩) = some i)
    ∧ (self.word_to_index.map Prod.fst).Nodup
    ∧ (∀ (w1 w2 : Str) (i : Nat), self.word_to_index.find w1 = some i →
        self.word_to_index.find w2 = some i → w1 = w2)
    ∧ (∀ (w : Str) (i : Nat), self.word_to_index.find w = some i →
        i < self.vocabulary.length)

/-! ## The tokenizer -/

theorem tokenizeLoop_eq (cs : List Char) (tokens : List Str) (token : Str) :
    tokenizeLoop cs tokens token
      = tokens ++ (List.splitOnP.go isSeparator cs token.reverse).filter
          (fun piece => !piece.isEmpty) := by
  induction cs generalizing tokens token with
  | nil =>
    cases token <;> simp [tokenizeLoop, List.splitOnP.go, List.filter]
  | cons c cs ih =>
    by_cases hc : isSeparator c = true
    · cases token with
      | nil => simp [tokenizeLoop, List.splitOnP.go, hc, ih, List.filter]
      | cons t ts => simp [tokenizeLoop, List.splitOnP.go, hc, ih, List.filter]
    · simp [tokenizeLoop, List.splitOnP.go, hc, ih]

/-- C4: for every text, `tokenize` returns the pieces obtained by splitting
the text at every separator character (space, period, comma) and discarding
the empty pieces, in left-to-right order and without deduplication. -/
theorem tokenize_eq_splitAtSeparators (text : Str) :
    TFIDFVectorizer.tokenize text = splitAtSeparators text := by
  have hsep : (fun c => decide (c = ' ' ∨ c = '.' ∨ c = ',')) = isSeparator := by
    funext c
    by_cases h1 : c = ' ' <;> by_cases h2 : c = '.' <;> by_cases h3 : c = ',' <;>
      simp [isSeparator, h1, h2, h3]
  have hne : (fun piece : Str => decide (piece ≠ [])) = (fun piece => !piece.isEmpty) := by
    funext piece
    cases piece <;> simp
  unfold splitAtSeparators
  rw [hsep, hne]
  simp [TFIDFVectorizer.tokenize, List.splitOnP, tokenizeLoop_eq]

/-! ## The association-list model of `std::unordered_map` -/

theorem UMap.find_update (m : UMap) (key k : Str) (f : Nat → Nat) :
    (UMap.update m key f).find k
      = if k = key then some (f ((m.find key).getD 0)) else m.find k := by
  induction m with
  | nil => simp [UMap.update, UMap.find]
  | cons p m ih =>
    obtain ⟨a, v⟩ := p
    by_cases hka : key = a
    · subst hka
      by_cases hk : k = key <;> simp [UMap.update, UMap.find, hk]
    · by_cases hk : k = key
      · subst hk
        simp [UMap.update, UMap.find, hka, ih]
      · by_cases hk2 : k = a
        · subst hk2
          simp [UMap.update, UMap.find, hka, hk]
        · simp [UMap.update, UMap.find, hka, hk, hk2, ih]

theorem UMap.find_eq_none_iff (m : UMap) (k : Str) :
    m.find k = none ↔ k ∉ m.map Prod.fst := by
  induction m with
  | nil => simp [UMap.find]
  | cons p m ih =>
    obtain ⟨a, v⟩ := p
    by_cases hk : k = a <;> simp [UMap.find, hk, ih]

theorem UMap.update_of_find_none (m : UMap) (key : Str) (f : Nat → Nat)
    (h : m.find key = none) : UMap.update m key f = m ++ [(key, f 0)] := by
  induction m with
  | nil => simp [UMap.update]
  | cons p m ih =>
    obtain ⟨a, v⟩ := p
    by_cases hk : key = a
    · simp [UMap.find, hk] at h
    · simp [UMap.find, hk] at h
      simp [UMap.update, hk, ih h]

theorem UMap.keys_update_of_find_some (m : UMap) (key : Str) (f : Nat → Nat) (v : Nat)
    (h : m.find key = some v) :
    (UMap.update m key f).map Prod.fst = m.map Prod.fst := by
  induction m with
  | nil => simp [UMap.find] at h
  | cons p m ih =>
    obtain ⟨a, w⟩ := p
    by_cases hk : key = a
    · simp [UMap.update, hk]
    · simp [UMap.find, hk] at h
      simp [UMap.update, hk, ih h]

theorem UMap.keys_update (m : UMap) (key : Str) (f : Nat → Nat) :
    (UMap.update m key f).map Prod.fst
      = if key ∈ m.map Prod.fst then m.map Prod.fst else m.map Prod.fst ++ [key] := by
  cases h : m.find key with
  | none =>
    have hk := (UMap.find_eq_none_iff m key).1 h
    rw [UMap.update_of_find_none m key f h, if_neg hk]
    simp
  | some v =>
    have hk : key ∈ m.map Prod.fst := by
      by_contra hc
      rw [(UMap.find_eq_none_iff m key).2 hc] at h
      cases h
    rw [UMap.keys_update_of_find_some m key f v h, if_pos hk]

theorem UMap.nodup_keys_update (m : UMap) (key : Str) (f : Nat → Nat)
    (h : (m.map Prod.fst).Nodup) : ((UMap.update m key f).map Prod.fst).Nodup := by
  rw [UMap.keys_update]
  split
  · exact h
  · rename_i hk
    exact List.Nodup.append h (List.nodup_singleton key) (by simpa using hk)

theorem UMap.find_of_mem (m : UMap) (k : Str) (v : Nat) (hn : (m.map Prod.fst).Nodup)
    (h : (k, v) ∈ m) : m.find k = some v := by
  induction m with
  | nil => simp at h
  | cons p m ih =>
    obtain ⟨a, w⟩ := p
    simp only [List.map_cons, List.nodup_cons] at hn
    rcases List.mem_cons.1 h with heq | hmem
    · cases heq
      simp [UMap.find]
    · have hka : k ≠ a := by
        intro hc
        subst hc
        exact hn.1 (List.mem_map.2 ⟨(k, v), hmem, rfl⟩)
      simp [UMap.find, hka, ih hn.2 hmem]

/-! ## The constructor and the class invariant -/

theorem consistent_empty : Consistent { vocabulary := [], word_to_index := [] } := by
  refine ⟨List.nodup_nil, ?_⟩
  intro w i
  simp [UMap.find]

theorem Consistent.mem_vocabulary_iff {self : TFIDFVectorizer} (h : Consistent self) (w : Str) :
    w ∈ self.vocabulary ↔ self.word_to_index.find w ≠ none := by
  constructor
  · intro hw
    obtain ⟨i, hi⟩ := List.mem_iff_getElem?.1 hw
    rw [(h.2 w i).2 hi]
    simp
  · intro hw
    cases hf : self.word_to_index.find w with
    | none => exact absurd hf hw
    | some i => exact List.mem_iff_getElem?.2 ⟨i, (h.2 w i).1 hf⟩

theorem Consistent.index_lt {self : TFIDFVectorizer} (h : Consistent self) {w : Str} {i : Nat}
    (hf : self.word_to_index.find w = some i) : i < self.vocabulary.length := by
  have := (h.2 w i).1 hf
  by_contra hc
  rw [List.getElem?_eq_none (Nat.le_of_not_lt hc)] at this
  cases this

theorem vocabulary_addWord {self : TFIDFVectorizer} (h : Consistent self) (word : Str) :
    (addWord self word).vocabulary
      = if word ∈ self.vocabulary then self.vocabulary else self.vocabulary ++ [word] := by
  unfold addWord
  by_cases hf : self.word_to_index.find word = none
  · have : word ∉ self.vocabulary := fun hw => (h.mem_vocabulary_iff word).1 hw hf
    simp [hf, this]
  · have : word ∈ self.vocabulary := (h.mem_vocabulary_iff word).2 hf
    simp [hf, this]

theorem consistent_addWord {self : TFIDFVectorizer} (h : Consistent self) (word : Str) :
    Consistent (addWord self word) := by
  unfold addWord
  by_cases hf : self.word_to_index.find word = none
  · have hnot : word ∉ self.vocabulary := fun hw => (h.mem_vocabulary_iff word).1 hw hf
    simp only [hf, if_true]
    refine ⟨List.Nodup.append h.1 (List.nodup_singleton word) (by simpa using hnot), ?_⟩
    intro w i
    simp only [UMap.find_update]
    by_cases hw : w = word
    · subst hw
      simp only [if_true]
      constructor
      · intro hi
        cases hi
        simp
      · intro hi
        by_cases hlt : i < self.vocabulary.length
        · rw [List.getElem?_append_left hlt] at hi
          exact absurd (List.mem_iff_getElem?.2 ⟨i, hi⟩) hnot
        · have hle := Nat.le_of_not_lt hlt
          rw [List.getElem?_append_right hle] at hi
          have : i - self.vocabulary.length = 0 := by
            by_contra hc
            obtain ⟨n, hn⟩ := Nat.exists_eq_succ_of_ne_zero hc
            rw [hn] at hi
            simp at hi
          congr 1
          omega
    · simp only [hw, if_false]
      rw [h.2 w i]
      by_cases hlt : i < self.vocabulary.length
      · rw [List.getElem?_append_left hlt]
      · have hle := Nat.le_of_not_lt hlt
        rw [List.getElem?_eq_none hle, List.getElem?_append_right hle]
        constructor
        · intro hc
          cases hc
        · intro hi
          cases hn : i - self.vocabulary.length with
          | zero =>
            rw [hn] at hi
            simp at hi
            exact absurd hi.symm hw
          | succ n =>
            rw [hn] at hi
            simp at hi
  · simpa [hf] using h

theorem consistent_foldl_addWord (words : List Str) {self : TFIDFVectorizer}
    (h : Consistent self) : Consistent (words.foldl addWord self) := by
  induction words generalizing self with
  | nil => exact h
  | cons w ws ih => exact ih (consistent_addWord h w)

theorem foldl_addProfile_eq (profiles : List Str) (self : TFIDFVectorizer) :
    profiles.foldl addProfile self
      = (profiles.map TFIDFVectorizer.tokenize).flatten.foldl addWord self := by
  induction profiles generalizing self with
  | nil => rfl
  | cons p ps ih => simp [addProfile, ih, List.foldl_append]

theorem new_eq_foldl_addWord (profiles : List Str) :
    TFIDFVectorizer.new profiles
      = (profiles.map TFIDFVectorizer.tokenize).flatten.foldl addWord
          { vocabulary := [], word_to_index := [] } :=
  foldl_addProfile_eq profiles _

theorem consistent_new (profiles : List Str) : Consistent (TFIDFVectorizer.new profiles) := by
  rw [new_eq_foldl_addWord]
  exact consistent_foldl_addWord _ consistent_empty

theorem mem_removeRepeats (l : List Str) (x : Str) : x ∈ removeRepeats l ↔ x ∈ l := by
  induction l with
  | nil => simp [removeRepeats]
  | cons w ws ih =>
    by_cases hx : x = w
    · simp [removeRepeats, hx]
    · simp [removeRepeats, hx, ih]

theorem nodup_removeRepeats (l : List Str) : (removeRepeats l).Nodup := by
  induction l with
  | nil => simp [removeRepeats]
  | cons w ws ih =>
    simp only [removeRepeats, List.nodup_cons]
    exact ⟨by simp, ih.filter _⟩

theorem removeRepeats_ordered (l : List Str) :
    (removeRepeats l).Pairwise (fun a b => l.indexOf a < l.indexOf b) := by
  induction l with
  | nil => simp [removeRepeats]
  | cons w ws ih =>
    simp only [removeRepeats, List.pairwise_cons]
    constructor
    · intro b hb
      have hbw : b ≠ w := by simpa using (List.mem_filter.1 hb).2
      rw [List.indexOf_cons, beq_self_eq_true, List.indexOf_cons,
        beq_false_of_ne (Ne.symm hbw)]
      exact Nat.succ_pos _
    · refine List.Pairwise.imp_of_mem ?_ (ih.filter _)
      intro a b ha hb hab
      have haw : a ≠ w := by simpa using (List.mem_filter.1 ha).2
      have hbw : b ≠ w := by simpa using (List.mem_filter.1 hb).2
      rw [List.indexOf_cons, beq_false_of_ne (Ne.symm haw), List.indexOf_cons,
        beq_false_of_ne (Ne.symm hbw)]
      exact Nat.succ_lt_succ hab

theorem vocabulary_foldl_addWord (words : List Str) {self : TFIDFVectorizer}
    (h : Consistent self) :
    (words.foldl addWord self).vocabulary
      = self.vocabulary ++ (removeRepeats words).filter (fun x => decide (x ∉ self.vocabulary)) := by
  induction words generalizing self with
  | nil => simp [removeRepeats]
  | cons w ws ih =>
    rw [List.foldl_cons, ih (consistent_addWord h w), vocabulary_addWord h w]
    by_cases hw : w ∈ self.vocabulary
    · simp only [hw, if_true, removeRepeats, List.filter_cons, not_true_eq_false,
        decide_False, Bool.false_eq_true, if_false, List.filter_filter]
      congr 1
      apply List.filter_congr
      intro x _
      by_cases hx : x ∈ self.vocabulary
      · simp [hx]
      · have : x ≠ w := fun hc => hx (hc ▸ hw)
        simp [hx, this]
    · simp only [hw, if_false, removeRepeats, List.filter_cons, not_false_eq_true,
        decide_True, if_true, List.filter_filter, List.append_assoc, List.singleton_append]
      congr 2
      apply List.filter_congr
      intro x _
      by_cases hx : x ∈ self.vocabulary <;> by_cases hxw : x = w <;> simp [hx, hxw]

theorem vocabulary_new (profiles : List Str) :
    (TFIDFVectorizer.new profiles).vocabulary
      = removeRepeats (profiles.map TFIDFVectorizer.tokenize).flatten := by
  rw [new_eq_foldl_addWord, vocabulary_foldl_addWord _ consistent_empty]
  simp

/-- C5: for every list of reference documents, the vocabulary built by the
constructor is the concatenation of the documents' token lists with every
occurrence of a token after its first removed; it has no duplicates, it
contains exactly the tokens of the reference documents, and its tokens are
ordered by their first occurrence in the concatenation.  Building from
`["cat dog", "dog bird"]` gives `["cat", "dog", "bird"]`, of size 3. -/
theorem vocabulary_first_occurrences (profiles : List Str) :
    (TFIDFVectorizer.new profiles).vocabulary
        = removeRepeats (profiles.map TFIDFVectorizer.tokenize).flatten
      ∧ (TFIDFVectorizer.new profiles).vocabulary.Nodup
      ∧ (∀ w : Str, w ∈ (TFIDFVectorizer.new profiles).vocabulary
          ↔ ∃ profile ∈ profiles, w ∈ TFIDFVectorizer.tokenize profile)
      ∧ (TFIDFVectorizer.new profiles).vocabulary.Pairwise
          (fun a b => (profiles.map TFIDFVectorizer.tokenize).flatten.indexOf a
            < (profiles.map TFIDFVectorizer.tokenize).flatten.indexOf b)
      ∧ (TFIDFVectorizer.new ["cat dog".toList, "dog bird".toList]).vocabulary
          = ["cat".toList, "dog".toList, "bird".toList]
      ∧ (TFIDFVectorizer.new ["cat dog".toList, "dog bird".toList]).vocabulary.length = 3 := by
  refine ⟨vocabulary_new profiles, ?_, ?_, ?_, by decide, by decide⟩
  · rw [vocabulary_new]
    exact nodup_removeRepeats _
  · intro w
    rw [vocabulary_new, mem_removeRepeats]
    simp [List.mem_flatten]
  · rw [vocabulary_new]
    exact removeRepeats_ordered _

/-! ## The term-frequency table of `transform` -/

theorem find_foldl_countWord (tokens : List Str) (m : UMap) (k : Str) :
    (tokens.foldl countWord m).find k
      = if tokens.count k = 0 then m.find k else some ((m.find k).getD 0 + tokens.count k) := by
  induction tokens generalizing m with
  | nil => simp
  | cons t ts ih =>
    rw [List.foldl_cons, ih, countWord, UMap.find_update, List.count_cons]
    by_cases hkt : k = t
    · subst hkt
      by_cases hc : List.count k ts = 0
      · simp [hc]
      · simp [hc]
        omega
    · have htk : ¬ t = k := fun h => hkt h.symm
      by_cases hc : List.count k ts = 0 <;> simp [hkt, htk, hc]

theorem nodup_keys_foldl_countWord (tokens : List Str) (m : UMap)
    (h : (m.map Prod.fst).Nodup) : ((tokens.foldl countWord m).map Prod.fst).Nodup := by
  induction tokens generalizing m with
  | nil => exact h
  | cons t ts ih => exact ih _ (UMap.nodup_keys_update m t _ h)

theorem mem_keys_foldl_countWord (tokens : List Str) (k : Str) :
    k ∈ (tokens.foldl countWord []).map Prod.fst ↔ k ∈ tokens := by
  rw [← not_iff_not, ← UMap.find_eq_none_iff, find_foldl_countWord]
  by_cases hc : List.count k tokens = 0
  · simp [hc, UMap.find, List.count_eq_zero.1 hc]
  · have : k ∈ tokens := by
      by_contra hk
      exact hc (List.count_eq_zero.2 hk)
    simp [hc, this]

theorem length_foldl_countWord (tokens : List Str) :
    (tokens.foldl countWord []).length = tokens.toFinset.card := by
  have hn := nodup_keys_foldl_countWord tokens [] (by simp)
  have hset : ((tokens.foldl countWord []).map Prod.fst).toFinset = tokens.toFinset := by
    ext k
    simp only [List.mem_toFinset]
    exact mem_keys_foldl_countWord tokens k
  rw [← hset, List.toFinset_card_of_nodup hn, List.length_map]

/-! ## The weighting loop of `transform` -/

theorem tfidfLoop_unseen {α : Type} [Field α] (log : α → α) {self : TFIDFVectorizer}
    (h : Consistent self) (size : Nat) (pairs : List (Str × Nat)) (values : List α)
    (hlen : values.length = self.vocabulary.length)
    (hex : ∃ pair ∈ pairs, self.word_to_index.find pair.1 = none) :
    tfidfLoop log self size pairs values = Except.error Error.out_of_range := by
  induction pairs generalizing values with
  | nil =>
    obtain ⟨pair, hp, _⟩ := hex
    cases hp
  | cons p ps ih =>
    cases hf : self.word_to_index.find p.1 with
    | none => simp [tfidfLoop, tfidfStep, hf]
    | some index =>
      have hlt : index < values.length := by
        rw [hlen]
        exact h.index_lt hf
      have hrest : ∃ pair ∈ ps, self.word_to_index.find pair.1 = none := by
        obtain ⟨pair, hp, hnone⟩ := hex
        rcases List.mem_cons.1 hp with heq | hmem
        · subst heq
          rw [hf] at hnone
          cases hnone
        · exact ⟨pair, hmem, hnone⟩
      simp only [tfidfLoop, tfidfStep, hf, hlt, if_true]
      exact ih _ (by simpa using hlen) hrest

theorem transform_unseen {α : Type} [Field α] (log : α → α) (profiles : List Str)
    (document w : Str) (hw : w ∈ TFIDFVectorizer.tokenize document)
    (hnew : w ∉ (TFIDFVectorizer.new profiles).vocabulary) :
    (TFIDFVectorizer.new profiles).transform log document
      = Except.error Error.out_of_range := by
  have hc := consistent_new profiles
  have hkey := (mem_keys_foldl_countWord (TFIDFVectorizer.tokenize document) w).2 hw
  obtain ⟨pair, hp, hpw⟩ := List.mem_map.1 hkey
  have hnone : (TFIDFVectorizer.new profiles).word_to_index.find pair.1 = none := by
    rw [hpw]
    by_contra hne
    exact hnew ((hc.mem_vocabulary_iff w).2 hne)
  unfold TFIDFVectorizer.transform
  simp only
  rw [tfidfLoop_unseen log hc _ _ _ (by simp) ⟨pair, hp, hnone⟩]

/-- C1 (refuted on the code): for every reference corpus and every document
that contains a token which occurs in no reference document, `transform`
does not return a vector: the lookup `word_to_index.at` throws
`std::out_of_range`. -/
theorem transform_throws_on_unseen_token (profiles : List Str) (document w : Str)
    (hw : w ∈ TFIDFVectorizer.tokenize document)
    (hnew : ∀ profile ∈ profiles, w ∉ TFIDFVectorizer.tokenize profile) :
    (TFIDFVectorizer.new profiles).transform Real.log document
      = Except.error Error.out_of_range := by
  apply transform_unseen Real.log profiles document w hw
  rw [vocabulary_new, mem_removeRepeats]
  simpa [List.mem_flatten] using hnew

/-- The instance of `transform_throws_on_unseen_token` at the corpus `["a"]`
and the document `"b"`. -/
theorem transform_throws_on_unseen_token_witness :
    (TFIDFVectorizer.new ["a".toList]).transform Real.log "b".toList
      = Except.error Error.out_of_range :=
  transform_throws_on_unseen_token ["a".toList] "b".toList "b".toList (by decide) (by decide)

/-- C2 (refuted on the code): with the vectorizer built from the two
candidate texts of `main`, `transform` succeeds on the two candidate texts
(lines 106-108), but on the first employer text ("Tech startup ...") it
throws `std::out_of_range`, and so it does on the second ("Financial
institution ..."): no employer vector and no similarity value is produced. -/
theorem main_transform_employer_throws :
    user_profiles.map
        (fun profile => ((TFIDFVectorizer.new user_profiles).transform Real.log profile).toBool)
      = [true, true]
    ∧ employer_profiles.map ((TFIDFVectorizer.new user_profiles).transform Real.log)
      = [Except.error Error.out_of_range, Except.error Error.out_of_range] :=
  ⟨rfl, rfl⟩

theorem tfidfLoop_spec {α : Type} [Field α] (log : α → α) {self : TFIDFVectorizer}
    (h : Consistent self) (size : Nat) (pairs : List (Str × Nat)) (values : List α)
    (hlen : values.length = self.vocabulary.length)
    (hkeys : (pairs.map Prod.fst).Nodup)
    (hseen : ∀ pair ∈ pairs, pair.1 ∈ self.vocabulary) :
    ∃ out : List α, tfidfLoop log self size pairs values = Except.ok out
      ∧ out.length = self.vocabulary.length
      ∧ ∀ (i : Nat) (w : Str), self.vocabulary[i]? = some w →
          out[i]? = match UMap.find pairs w with
            | some c => some ((c : α) / (size : α)
                * log ((self.vocabulary.length : α) / ((i + 1 : Nat) : α)))
            | none => values[i]? := by
  induction pairs generalizing values with
  | nil =>
    refine ⟨values, rfl, hlen, ?_⟩
    intro i w _
    simp [UMap.find]
  | cons p ps ih =>
    obtain ⟨k, c⟩ := p
    simp only [List.map_cons, List.nodup_cons] at hkeys
    have hk : k ∈ self.vocabulary := hseen (k, c) (List.mem_cons_self _ _)
    obtain ⟨j, hj⟩ : ∃ j, self.word_to_index.find k = some j := by
      cases hf : self.word_to_index.find k with
      | none => exact absurd hf ((h.mem_vocabulary_iff k).1 hk)
      | some j => exact ⟨j, rfl⟩
    have hjlt : j < values.length := by
      rw [hlen]
      exact h.index_lt hj
    obtain ⟨out, hout, houtlen, hentries⟩ :=
      ih (values.set j ((c : α) / (size : α)
            * log ((self.vocabulary.length : α) / ((j + 1 : Nat) : α))))
        (by simpa using hlen) hkeys.2
        (fun pair hp => hseen pair (List.mem_cons_of_mem _ hp))
    refine ⟨out, ?_, houtlen, ?_⟩
    · simp only [tfidfLoop, tfidfStep, hj, hjlt, if_true]
      exact hout
    · intro i w hw
      rw [hentries i w hw]
      by_cases hwk : w = k
      · subst hwk
        have hij : i = j := by
          have := (h.2 w i).2 hw
          rw [hj] at this
          exact (Option.some.inj this).symm
        subst hij
        have hnone : UMap.find ps w = none := (UMap.find_eq_none_iff ps w).2 hkeys.1
        simp [UMap.find, hnone, List.getElem?_set_self hjlt]
      · have hij : j ≠ i := by
          intro hc
          subst hc
          have := (h.2 k j).1 hj
          rw [hw] at this
          exact hwk (Option.some.inj this)
        simp [UMap.find, hwk, List.getElem?_set_ne hij]

/-- C3: for every reference corpus, with vocabulary of size `V`, and every
document all of whose tokens occur in the vocabulary, `transform` returns a
vector of length `V` whose entry at each vocabulary index `i`, with word `w`,
is `(c / d) * ln (V / (i + 1))` when `w` occurs `c ≥ 1` times among the
tokens of the document, `d` being the number of distinct tokens of the
document, and `0` when `w` does not occur (arithmetic over the reals). -/
theorem transform_entries (profiles : List Str) (document : Str)
    (hseen : ∀ w ∈ TFIDFVectorizer.tokenize document,
      w ∈ (TFIDFVectorizer.new profiles).vocabulary) :
    ∃ v : TFIDFVector ℝ,
      (TFIDFVectorizer.new profiles).transform Real.log document = Except.ok v
      ∧ v.tfidf_values.length = (TFIDFVectorizer.new profiles).vocabulary.length
      ∧ ∀ (i : Nat) (w : Str), (TFIDFVectorizer.new profiles).vocabulary[i]? = some w →
          (1 ≤ (TFIDFVectorizer.tokenize document).count w →
            v.tfidf_values[i]?
              = some ((((TFIDFVectorizer.tokenize document).count w : Nat) : ℝ)
                  / (((TFIDFVectorizer.tokenize document).toFinset.card : Nat) : ℝ)
                * Real.log ((((TFIDFVectorizer.new profiles).vocabulary.length : Nat) : ℝ)
                    / ((i : ℝ) + 1))))
          ∧ ((TFIDFVectorizer.tokenize document).count w = 0 →
              v.tfidf_values[i]? = some 0) := by
  have hc := consistent_new profiles
  have hkeys := nodup_keys_foldl_countWord (TFIDFVectorizer.tokenize document) [] (by simp)
  have hvoc : ∀ pair ∈ (TFIDFVectorizer.tokenize document).foldl countWord [],
      pair.1 ∈ (TFIDFVectorizer.new profiles).vocabulary := by
    intro pair hp
    apply hseen
    rw [← mem_keys_foldl_countWord]
    exact List.mem_map.2 ⟨pair, hp, rfl⟩
  obtain ⟨out, hout, hlen, hentries⟩ :=
    tfidfLoop_spec Real.log hc ((TFIDFVectorizer.tokenize document).foldl countWord []).length
      ((TFIDFVectorizer.tokenize document).foldl countWord [])
      (List.replicate (TFIDFVectorizer.new profiles).vocabulary.length (0 : ℝ))
      (by simp) hkeys hvoc
  refine ⟨{ tfidf_values := out }, ?_, hlen, ?_⟩
  · unfold TFIDFVectorizer.transform
    simp only
    rw [hout]
  · intro i w hw
    have hi : i < (TFIDFVectorizer.new profiles).vocabulary.length := by
      by_contra hc2
      rw [List.getElem?_eq_none (Nat.le_of_not_lt hc2)] at hw
      cases hw
    have hval := hentries i w hw
    rw [find_foldl_countWord, length_foldl_countWord] at hval
    constructor
    · intro hcount
      have hne : ¬ List.count w (TFIDFVectorizer.tokenize document) = 0 := by omega
      simp only [hne, if_false, UMap.find, Option.getD_none, Nat.zero_add] at hval
      rw [hval]
      push_cast
      rfl
    · intro hcount
      simp only [hcount, if_true, UMap.find] at hval
      rw [hval, List.getElem?_replicate_of_lt hi]

/-- The instance of `transform_entries` at the corpus `["cat dog", "dog
bird"]` and the document `"dog cat dog"`. -/
theorem transform_entries_witness :
    ∃ v : TFIDFVector ℝ,
      (TFIDFVectorizer.new ["cat dog".toList, "dog bird".toList]).transform Real.log
          "dog cat dog".toList = Except.ok v
      ∧ v.tfidf_values.length
          = (TFIDFVectorizer.new ["cat dog".toList, "dog bird".toList]).vocabulary.length
      ∧ ∀ (i : Nat) (w : Str),
          (TFIDFVectorizer.new ["cat dog".toList, "dog bird".toList]).vocabulary[i]? = some w →
          (1 ≤ (TFIDFVectorizer.tokenize "dog cat dog".toList).count w →
            v.tfidf_values[i]?
              = some ((((TFIDFVectorizer.tokenize "dog cat dog".toList).count w : Nat) : ℝ)
                  / (((TFIDFVectorizer.tokenize "dog cat dog".toList).toFinset.card : Nat) : ℝ)
                * Real.log ((((TFIDFVectorizer.new
                      ["cat dog".toList, "dog bird".toList]).vocabulary.length : Nat) : ℝ)
                    / ((i : ℝ) + 1))))
          ∧ ((TFIDFVectorizer.tokenize "dog cat dog".toList).count w = 0 →
              v.tfidf_values[i]? = some 0) :=
  transform_entries ["cat dog".toList, "dog bird".toList] "dog cat dog".toList (by decide)

/-! ## Cosine similarity -/

theorem cosineLoop_eq_sums {α : Type} [Field α] (xs ys : List α) (acc : α × α × α)
    (hlen : xs.length = ys.length) :
    cosineLoop xs ys acc
      = Except.ok (acc.1 + (List.zipWith (fun x y => x * y) xs ys).sum,
          acc.2.1 + (xs.map (fun x => x ^ 2)).sum,
          acc.2.2 + (ys.map (fun y => y ^ 2)).sum) := by
  induction xs generalizing ys acc with
  | nil =>
    cases ys with
    | nil => simp [cosineLoop]
    | cons y ys => simp at hlen
  | cons x xs ih =>
    cases ys with
    | nil => simp at hlen
    | cons y ys =>
      obtain ⟨d, n1, n2⟩ := acc
      have hl : xs.length = ys.length := by simpa using hlen
      simp [cosineLoop, ih ys _ hl, add_assoc]

theorem cosineLoop_take {α : Type} [Field α] (xs ys : List α) (acc : α × α × α)
    (hlen : xs.length ≤ ys.length) :
    cosineLoop xs ys acc = cosineLoop xs (ys.take xs.length) acc := by
  induction xs generalizing ys acc with
  | nil => simp [cosineLoop]
  | cons x xs ih =>
    cases ys with
    | nil => simp at hlen
    | cons y ys =>
      obtain ⟨d, n1, n2⟩ := acc
      have hl : xs.length ≤ ys.length := by simpa using hlen
      simp only [cosineLoop, List.length_cons, List.take_succ_cons]
      exact ih ys _ hl

theorem cosine_similarity_eq {α : Type} [Field α] [DecidableEq α] (sqrt : α → α)
    (v1 v2 : TFIDFVector α) (hlen : v1.tfidf_values.length = v2.tfidf_values.length) :
    cosine_similarity sqrt v1 v2
      = if (v1.tfidf_values.map (fun x => x ^ 2)).sum = 0
            ∨ (v2.tfidf_values.map (fun y => y ^ 2)).sum = 0 then Except.ok 0
        else Except.ok ((List.zipWith (fun x y => x * y) v1.tfidf_values v2.tfidf_values).sum
          / (sqrt (v1.tfidf_values.map (fun x => x ^ 2)).sum
              * sqrt (v2.tfidf_values.map (fun y => y ^ 2)).sum)) := by
  unfold cosine_similarity
  rw [cosineLoop_eq_sums _ _ _ hlen]
  simp

theorem sum_sq_nonneg (l : List ℝ) : 0 ≤ (l.map (fun x => x ^ 2)).sum := by
  induction l with
  | nil => simp
  | cons x xs ih =>
    simp only [List.map_cons, List.sum_cons]
    positivity

theorem sum_sq_eq_zero_iff (l : List ℝ) :
    (l.map (fun x => x ^ 2)).sum = 0 ↔ ∀ x ∈ l, x = 0 := by
  induction l with
  | nil => simp
  | cons x xs ih =>
    simp only [List.map_cons, List.sum_cons, List.mem_cons, forall_eq_or_imp]
    have h1 : 0 ≤ x ^ 2 := by positivity
    have h2 := sum_sq_nonneg xs
    constructor
    · intro h
      have hx : x ^ 2 = 0 := by linarith
      have hs : (xs.map (fun x => x ^ 2)).sum = 0 := by linarith
      exact ⟨by simpa using hx, ih.1 hs⟩
    · rintro ⟨hx, hs⟩
      rw [ih.2 hs, hx]
      simp

theorem zipWith_mul_self (l : List ℝ) :
    List.zipWith (fun x y => x * y) l l = l.map (fun x => x ^ 2) := by
  induction l with
  | nil => rfl
  | cons x xs ih => simp [ih, sq]

theorem zipWith_mul_comm (xs ys : List ℝ) :
    List.zipWith (fun x y => x * y) xs ys = List.zipWith (fun x y => x * y) ys xs := by
  induction xs generalizing ys with
  | nil => cases ys <;> rfl
  | cons x xs ih =>
    cases ys with
    | nil => rfl
    | cons y ys => simp [ih ys, mul_comm]

/-- C6 (as stated, refuted): the vectors `[1]` and `[1, 2]` differ in length,
yet `cosine_similarity` returns the score `1` for them instead of failing. -/
theorem cosine_similarity_no_length_check :
    ([1] : List ℝ).length ≠ ([1, 2] : List ℝ).length
      ∧ cosine_similarity Real.sqrt { tfidf_values := [1] } { tfidf_values := [1, 2] }
          = Except.ok 1 := by
  refine ⟨by decide, ?_⟩
  simp [cosine_similarity, cosineLoop]

/-- C6 (amended): `cosine_similarity` makes no length check and reports no
length mismatch.  When the first vector is shorter than the second, a score
is returned, and it is the score of the first vector against the second cut
down to the length of the first: the extra entries of the second are
silently ignored. -/
theorem cosine_similarity_length_mismatch (v1 v2 : TFIDFVector ℝ)
    (hlt : v1.tfidf_values.length < v2.tfidf_values.length) :
    (∃ score : ℝ, cosine_similarity Real.sqrt v1 v2 = Except.ok score)
      ∧ cosine_similarity Real.sqrt v1 v2
          = cosine_similarity Real.sqrt v1
              { tfidf_values := v2.tfidf_values.take v1.tfidf_values.length } := by
  have htake : cosine_similarity Real.sqrt v1 v2
      = cosine_similarity Real.sqrt v1
          { tfidf_values := v2.tfidf_values.take v1.tfidf_values.length } := by
    unfold cosine_similarity
    rw [cosineLoop_take _ _ _ (Nat.le_of_lt hlt)]
  refine ⟨?_, htake⟩
  rw [htake, cosine_similarity_eq _ _ _ (by simp [List.length_take, Nat.le_of_lt hlt])]
  split
  · exact ⟨_, rfl⟩
  · exact ⟨_, rfl⟩

/-- The instance of `cosine_similarity_length_mismatch` at `[1]`, `[1, 2]`. -/
theorem cosine_similarity_length_mismatch_witness :
    (∃ score : ℝ, cosine_similarity Real.sqrt { tfidf_values := [1] }
        { tfidf_values := [1, 2] } = Except.ok score)
      ∧ cosine_similarity Real.sqrt { tfidf_values := [1] } { tfidf_values := [1, 2] }
          = cosine_similarity Real.sqrt { tfidf_values := [1] }
              { tfidf_values := ([1, 2] : List ℝ).take ([1] : List ℝ).length } :=
  cosine_similarity_length_mismatch { tfidf_values := [1] } { tfidf_values := [1, 2] }
    (by decide)

/-- C7: for every pair of equal-length vectors of which one is the zero
vector, `cosine_similarity` returns exactly `0`; two zero-length vectors are
included. -/
theorem cosine_similarity_zero_vector (a b : TFIDFVector ℝ)
    (hlen : a.tfidf_values.length = b.tfidf_values.length)
    (hzero : (∀ x ∈ a.tfidf_values, x = 0) ∨ (∀ y ∈ b.tfidf_values, y = 0)) :
    cosine_similarity Real.sqrt a b = Except.ok 0 := by
  have hsum : (a.tfidf_values.map (fun x => x ^ 2)).sum = 0
      ∨ (b.tfidf_values.map (fun y => y ^ 2)).sum = 0 :=
    hzero.imp (sum_sq_eq_zero_iff _).2 (sum_sq_eq_zero_iff _).2
  rw [cosine_similarity_eq _ _ _ hlen, if_pos hsum]

/-- The instance of `cosine_similarity_zero_vector` at two zero-length
vectors. -/
theorem cosine_similarity_zero_vector_witness :
    cosine_similarity Real.sqrt { tfidf_values := [] } { tfidf_values := [] }
      = Except.ok 0 :=
  cosine_similarity_zero_vector { tfidf_values := [] } { tfidf_values := [] } rfl
    (Or.inl (by simp))

/-- C8: for every vector `v` with at least one non-zero entry,
`cosine_similarity v v` is `1` (arithmetic over the reals). -/
theorem cosine_similarity_self (v : TFIDFVector ℝ) (hv : ∃ x ∈ v.tfidf_values, x ≠ 0) :
    cosine_similarity Real.sqrt v v = Except.ok 1 := by
  have hne : ¬ (v.tfidf_values.map (fun x => x ^ 2)).sum = 0 := by
    rw [sum_sq_eq_zero_iff]
    push_neg
    exact hv
  rw [cosine_similarity_eq _ _ _ rfl, if_neg (by simpa using hne), zipWith_mul_self,
    Real.mul_self_sqrt (sum_sq_nonneg _), div_self hne]

/-- The instance of `cosine_similarity_self` at the vector `[0, 2]`. -/
theorem cosine_similarity_self_witness :
    cosine_similarity Real.sqrt { tfidf_values := [0, 2] } { tfidf_values := [0, 2] }
      = Except.ok 1 :=
  cosine_similarity_self { tfidf_values := [0, 2] } ⟨2, by simp, by norm_num⟩

/-- C9: for all vectors `a` and `b` of equal length,
`cosine_similarity a b = cosine_similarity b a`. -/
theorem cosine_similarity_comm (a b : TFIDFVector ℝ)
    (hlen : a.tfidf_values.length = b.tfidf_values.length) :
    cosine_similarity Real.sqrt a b = cosine_similarity Real.sqrt b a := by
  rw [cosine_similarity_eq _ _ _ hlen, cosine_similarity_eq _ _ _ hlen.symm,
    zipWith_mul_comm a.tfidf_values b.tfidf_values,
    mul_comm (Real.sqrt (a.tfidf_values.map (fun x => x ^ 2)).sum)]
  simp only [or_comm]

/-- The instance of `cosine_similarity_comm` at `[1, 2]` and `[3, 4]`. -/
theorem cosine_similarity_comm_witness :
    cosine_similarity Real.sqrt { tfidf_values := [1, 2] } { tfidf_values := [3, 4] }
      = cosine_similarity Real.sqrt { tfidf_values := [3, 4] } { tfidf_values := [1, 2] } :=
  cosine_similarity_comm { tfidf_values := [1, 2] } { tfidf_values := [3, 4] } rfl

theorem sum_sq_scale (k : ℝ) (l : List ℝ) :
    ((l.map (fun x => k * x)).map (fun y => y ^ 2)).sum
      = k ^ 2 * (l.map (fun x => x ^ 2)).sum := by
  induction l with
  | nil => simp
  | cons x xs ih =>
    simp only [List.map_cons, List.sum_cons, ih]
    ring

theorem dot_scale (k : ℝ) (l : List ℝ) :
    (List.zipWith (fun x y => x * y) l (l.map (fun x => k * x))).sum
      = k * (l.map (fun x => x ^ 2)).sum := by
  induction l with
  | nil => simp
  | cons x xs ih =>
    simp only [List.map_cons, List.zipWith_cons_cons, List.sum_cons, ih]
    ring

/-- C10: for every non-empty vector `a` whose entries are all strictly
positive and every real `k > 0`, `cosine_similarity a (k * a)` is `1`, where
`k * a` is `a` with every entry multiplied by `k` (arithmetic over the
reals). -/
theorem cosine_similarity_scaled (a : TFIDFVector ℝ) (k : ℝ)
    (hne : a.tfidf_values ≠ []) (hpos : ∀ x ∈ a.tfidf_values, 0 < x) (hk : 0 < k) :
    cosine_similarity Real.sqrt a { tfidf_values := a.tfidf_values.map (fun x => k * x) }
      = Except.ok 1 := by
  have hS0 : ¬ (a.tfidf_values.map (fun x => x ^ 2)).sum = 0 := by
    rw [sum_sq_eq_zero_iff]
    push_neg
    obtain ⟨x, hx⟩ := List.exists_mem_of_ne_nil _ hne
    exact ⟨x, hx, ne_of_gt (hpos x hx)⟩
  have hS := sum_sq_nonneg a.tfidf_values
  have hk0 : k ≠ 0 := ne_of_gt hk
  rw [cosine_similarity_eq _ _ _ (by simp)]
  simp only [sum_sq_scale, dot_scale]
  rw [if_neg (by simp [hS0, hk0]), Real.sqrt_mul (sq_nonneg k), Real.sqrt_sq (le_of_lt hk)]
  have hprod : Real.sqrt (a.tfidf_values.map (fun x => x ^ 2)).sum
      * (k * Real.sqrt (a.tfidf_values.map (fun x => x ^ 2)).sum)
      = k * (a.tfidf_values.map (fun x => x ^ 2)).sum := by
    rw [mul_left_comm, Real.mul_self_sqrt hS]
  rw [hprod, div_self (mul_ne_zero hk0 hS0)]

/-- The instance of `cosine_similarity_scaled` at `a = [1, 2]` and `k = 3`. -/
theorem cosine_similarity_scaled_witness :
    cosine_similarity Real.sqrt { tfidf_values := [1, 2] }
        { tfidf_values := ([1, 2] : List ℝ).map (fun x => 3 * x) }
      = Except.ok 1 :=
  cosine_similarity_scaled { tfidf_values := [1, 2] } 3 (by simp)
    (by
      intro x hx
      simp only [List.mem_cons, List.mem_singleton, List.not_mem_nil, or_false] at hx
      rcases hx with rfl | rfl <;> norm_num)
    (by norm_num)

/-! ## Bounds on the cosine similarity -/

theorem dot_sq_le (xs ys : List ℝ) :
    (List.zipWith (fun x y => x * y) xs ys).sum ^ 2
      ≤ (xs.map (fun x => x ^ 2)).sum * (ys.map (fun y => y ^ 2)).sum := by
  induction xs generalizing ys with
  | nil =>
    have := sum_sq_nonneg ys
    simp
  | cons x xs ih =>
    cases ys with
    | nil =>
      have := sum_sq_nonneg (x :: xs)
      simp
    | cons y ys =>
      have hA := sum_sq_nonneg xs
      have hB := sum_sq_nonneg ys
      have hd := ih ys
      simp only [List.zipWith_cons_cons, List.map_cons, List.sum_cons]
      generalize (List.zipWith (fun x y => x * y) xs ys).sum = d at hd ⊢
      generalize (xs.map (fun x => x ^ 2)).sum = A at hA hd ⊢
      generalize (ys.map (fun y => y ^ 2)).sum = B at hB hd ⊢
      have hnn : 0 ≤ A * y ^ 2 + B * x ^ 2 := by positivity
      have hsq : (2 * d * x * y) ^ 2 ≤ (A * y ^ 2 + B * x ^ 2) ^ 2 := by
        have h1 : (2 * d * x * y) ^ 2 = 4 * d ^ 2 * (x ^ 2 * y ^ 2) := by ring
        have h2 : 4 * d ^ 2 * (x ^ 2 * y ^ 2) ≤ 4 * (A * B) * (x ^ 2 * y ^ 2) := by
          have : 0 ≤ x ^ 2 * y ^ 2 := by positivity
          nlinarith
        have h3 : 4 * (A * B) * (x ^ 2 * y ^ 2) ≤ (A * y ^ 2 + B * x ^ 2) ^ 2 := by
          nlinarith [sq_nonneg (A * y ^ 2 - B * x ^ 2)]
        linarith
      have hle := (abs_le_of_sq_le_sq' hsq hnn).2
      nlinarith

theorem cosine_similarity_bounds (a b : TFIDFVector ℝ)
    (hlen : a.tfidf_values.length = b.tfidf_values.length) :
    ∃ score : ℝ, cosine_similarity Real.sqrt a b = Except.ok score
      ∧ -1 ≤ score ∧ score ≤ 1
      ∧ (0 ≤ (List.zipWith (fun x y => x * y) a.tfidf_values b.tfidf_values).sum
          → 0 ≤ score) := by
  rw [cosine_similarity_eq _ _ _ hlen]
  have hA := sum_sq_nonneg a.tfidf_values
  have hB := sum_sq_nonneg b.tfidf_values
  have hd := dot_sq_le a.tfidf_values b.tfidf_values
  generalize (List.zipWith (fun x y => x * y) a.tfidf_values b.tfidf_values).sum = d at hd ⊢
  generalize (a.tfidf_values.map (fun x => x ^ 2)).sum = A at hA hd ⊢
  generalize (b.tfidf_values.map (fun y => y ^ 2)).sum = B at hB hd ⊢
  by_cases hz : A = 0 ∨ B = 0
  · rw [if_pos hz]
    exact ⟨0, rfl, by norm_num, by norm_num, fun _ => le_refl 0⟩
  · rw [if_neg hz]
    push_neg at hz
    have hA0 : 0 < A := lt_of_le_of_ne hA (Ne.symm hz.1)
    have hB0 : 0 < B := lt_of_le_of_ne hB (Ne.symm hz.2)
    have hden : 0 < Real.sqrt A * Real.sqrt B :=
      mul_pos (Real.sqrt_pos.2 hA0) (Real.sqrt_pos.2 hB0)
    have hden2 : (Real.sqrt A * Real.sqrt B) ^ 2 = A * B := by
      rw [mul_pow, Real.sq_sqrt hA, Real.sq_sqrt hB]
    have habs := abs_le_of_sq_le_sq' (hd.trans (le_of_eq hden2.symm)) (le_of_lt hden)
    refine ⟨_, rfl, ?_, ?_, ?_⟩
    · rw [le_div_iff₀ hden]
      linarith [habs.1]
    · rw [div_le_one hden]
      exact habs.2
    · intro hd0
      exact div_nonneg hd0 (le_of_lt hden)

/-- C11: for all real vectors `a` and `b` of equal length, `cosine_similarity`
returns a value, and that value lies in the closed interval `[-1, 1]`. -/
theorem cosine_similarity_mem_Icc (a b : TFIDFVector ℝ)
    (hlen : a.tfidf_values.length = b.tfidf_values.length) :
    ∃ score : ℝ, cosine_similarity Real.sqrt a b = Except.ok score
      ∧ -1 ≤ score ∧ score ≤ 1 := by
  obtain ⟨score, hs, hlo, hhi, _⟩ := cosine_similarity_bounds a b hlen
  exact ⟨score, hs, hlo, hhi⟩

/-- The instance of `cosine_similarity_mem_Icc` at `[1, -2]` and `[3, 4]`. -/
theorem cosine_similarity_mem_Icc_witness :
    ∃ score : ℝ, cosine_similarity Real.sqrt { tfidf_values := [1, -2] }
        { tfidf_values := [3, 4] } = Except.ok score
      ∧ -1 ≤ score ∧ score ≤ 1 :=
  cosine_similarity_mem_Icc { tfidf_values := [1, -2] } { tfidf_values := [3, 4] } rfl

/-! ## Further properties of the tokenizer -/

theorem isSeparator_iff (c : Char) :
    isSeparator c = true ↔ c = ' ' ∨ c = '.' ∨ c = ',' := by
  simp [isSeparator, or_assoc]

theorem tokenizeLoop_flatten (cs : List Char) (tokens : List Str) (token : Str) :
    (tokenizeLoop cs tokens token).flatten
      = tokens.flatten ++ token ++ cs.filter (fun c => !isSeparator c) := by
  induction cs generalizing tokens token with
  | nil => cases token <;> simp [tokenizeLoop]
  | cons c cs ih =>
    by_cases hc : isSeparator c = true
    · cases token with
      | nil => simp [tokenizeLoop, hc, ih]
      | cons t ts => simp [tokenizeLoop, hc, ih]
    · simp [tokenizeLoop, hc, ih]

theorem tokenizeLoop_tokens (cs : List Char) (tokens : List Str) (token : Str)
    (htokens : ∀ t ∈ tokens, t ≠ [] ∧ ∀ c ∈ t, isSeparator c = false)
    (htoken : ∀ c ∈ token, isSeparator c = false) :
    ∀ t ∈ tokenizeLoop cs tokens token, t ≠ [] ∧ ∀ c ∈ t, isSeparator c = false := by
  induction cs generalizing tokens token with
  | nil =>
    cases token with
    | nil => simpa [tokenizeLoop] using htokens
    | cons a as =>
      intro t ht
      simp only [tokenizeLoop, List.isEmpty_cons, Bool.not_false, if_true, List.mem_append,
        List.mem_singleton] at ht
      rcases ht with ht | ht
      · exact htokens t ht
      · subst ht
        exact ⟨List.cons_ne_nil _ _, htoken⟩
  | cons c cs ih =>
    by_cases hc : isSeparator c = true
    · cases token with
      | nil =>
        simp only [tokenizeLoop, hc, if_true, List.isEmpty_nil, Bool.not_true,
          Bool.false_eq_true, if_false]
        exact ih tokens [] htokens htoken
      | cons a as =>
        simp only [tokenizeLoop, hc, if_true, List.isEmpty_cons, Bool.not_false]
        apply ih
        · intro t ht
          rcases List.mem_append.1 ht with ht | ht
          · exact htokens t ht
          · rw [List.mem_singleton.1 ht]
            exact ⟨List.cons_ne_nil _ _, htoken⟩
        · simp
    · simp only [tokenizeLoop, hc, Bool.false_eq_true, if_false]
      apply ih _ _ htokens
      intro x hx
      rcases List.mem_append.1 hx with hx | hx
      · exact htoken x hx
      · rw [List.mem_singleton.1 hx]
        simpa using hc

theorem tokenizeLoop_separators (cs : List Char) (tokens : List Str)
    (hcs : ∀ c ∈ cs, isSeparator c = true) : tokenizeLoop cs tokens [] = tokens := by
  induction cs with
  | nil => simp [tokenizeLoop]
  | cons c cs ih =>
    have hc : isSeparator c = true := hcs c (List.mem_cons_self _ _)
    simp only [tokenizeLoop, hc, if_true, List.isEmpty_nil, Bool.not_true,
      Bool.false_eq_true, if_false]
    exact ih (fun x hx => hcs x (List.mem_cons_of_mem _ hx))

/-- C14: for every text, every token returned by `tokenize` is non-empty and
contains no space, no period and no comma; `tokenize ""` is empty and
`tokenize "a, b."` is `["a", "b"]`. -/
theorem tokenize_tokens_clean (text : Str) :
    (∀ token ∈ TFIDFVectorizer.tokenize text,
        token ≠ [] ∧ ' ' ∉ token ∧ '.' ∉ token ∧ ',' ∉ token)
      ∧ TFIDFVectorizer.tokenize "".toList = []
      ∧ TFIDFVectorizer.tokenize "a, b.".toList = ["a".toList, "b".toList] := by
  refine ⟨?_, by decide, by decide⟩
  intro token ht
  obtain ⟨hne, hsep⟩ := tokenizeLoop_tokens text [] [] (by simp) (by simp) token ht
  refine ⟨hne, ?_, ?_, ?_⟩
  · intro hc
    have := hsep _ hc
    simp [isSeparator] at this
  · intro hc
    have := hsep _ hc
    simp [isSeparator] at this
  · intro hc
    have := hsep _ hc
    simp [isSeparator] at this

/-- C18: for every text, concatenating the tokens returned by `tokenize`, in
order, gives exactly the text with every space, period and comma deleted; no
other character is dropped, changed or moved. -/
theorem tokenize_flatten (text : Str) :
    (TFIDFVectorizer.tokenize text).flatten
      = text.filter (fun c => decide (¬ (c = ' ' ∨ c = '.' ∨ c = ','))) := by
  have hpred : (fun c => decide (¬ (c = ' ' ∨ c = '.' ∨ c = ',')))
      = (fun c => !isSeparator c) := by
    funext c
    by_cases h : isSeparator c = true
    · have h2 := (isSeparator_iff c).1 h
      simp [h, h2]
    · have h2 : ¬ (c = ' ' ∨ c = '.' ∨ c = ',') := fun hc => h ((isSeparator_iff c).2 hc)
      simp [h, h2]
  rw [hpred]
  simp [TFIDFVectorizer.tokenize, tokenizeLoop_flatten]

/-! ## The result of `transform` -/

theorem transform_ok_seen {α : Type} [Field α] (log : α → α) (profiles : List Str)
    (document : Str) (v : TFIDFVector α)
    (h : (TFIDFVectorizer.new profiles).transform log document = Except.ok v) :
    ∀ w ∈ TFIDFVectorizer.tokenize document, w ∈ (TFIDFVectorizer.new profiles).vocabulary := by
  intro w hw
  by_contra hnot
  rw [transform_unseen log profiles document w hw hnot] at h
  cases h

theorem transform_spec {α : Type} [Field α] (log : α → α) (profiles : List Str)
    (document : Str)
    (hseen : ∀ w ∈ TFIDFVectorizer.tokenize document,
      w ∈ (TFIDFVectorizer.new profiles).vocabulary) :
    ∃ out : List α,
      (TFIDFVectorizer.new profiles).transform log document
          = Except.ok { tfidf_values := out }
      ∧ out.length = (TFIDFVectorizer.new profiles).vocabulary.length
      ∧ ∀ (i : Nat) (w : Str), (TFIDFVectorizer.new profiles).vocabulary[i]? = some w →
          out[i]? = some (if (TFIDFVectorizer.tokenize document).count w = 0 then 0
            else (((TFIDFVectorizer.tokenize document).count w : Nat) : α)
                / (((TFIDFVectorizer.tokenize document).toFinset.card : Nat) : α)
              * log ((((TFIDFVectorizer.new profiles).vocabulary.length : Nat) : α)
                  / ((i + 1 : Nat) : α))) := by
  have hc := consistent_new profiles
  have hkeys := nodup_keys_foldl_countWord (TFIDFVectorizer.tokenize document) [] (by simp)
  have hvoc : ∀ pair ∈ (TFIDFVectorizer.tokenize document).foldl countWord [],
      pair.1 ∈ (TFIDFVectorizer.new profiles).vocabulary := by
    intro pair hp
    apply hseen
    rw [← mem_keys_foldl_countWord]
    exact List.mem_map.2 ⟨pair, hp, rfl⟩
  obtain ⟨out, hout, hlen, hentries⟩ :=
    tfidfLoop_spec log hc ((TFIDFVectorizer.tokenize document).foldl countWord []).length
      ((TFIDFVectorizer.tokenize document).foldl countWord [])
      (List.replicate (TFIDFVectorizer.new profiles).vocabulary.length (0 : α))
      (by simp) hkeys hvoc
  refine ⟨out, ?_, hlen, ?_⟩
  · unfold TFIDFVectorizer.transform
    simp only
    rw [hout]
  · intro i w hw
    have hi : i < (TFIDFVectorizer.new profiles).vocabulary.length := by
      by_contra hc2
      rw [List.getElem?_eq_none (Nat.le_of_not_lt hc2)] at hw
      cases hw
    have hval := hentries i w hw
    rw [find_foldl_countWord, length_foldl_countWord] at hval
    by_cases hcount : List.count w (TFIDFVectorizer.tokenize document) = 0
    · simp only [hcount, if_true, UMap.find] at hval
      rw [hval, List.getElem?_replicate_of_lt hi, if_pos hcount]
    · simp only [hcount, if_false, UMap.find, Option.getD_none, Nat.zero_add] at hval
      rw [hval, if_neg hcount]

theorem transform_no_tokens {α : Type} [Field α] (log : α → α) (self : TFIDFVectorizer)
    (document : Str) (h : TFIDFVectorizer.tokenize document = []) :
    self.transform log document
      = Except.ok { tfidf_values := List.replicate self.vocabulary.length 0 } := by
  simp [TFIDFVectorizer.transform, h, tfidfLoop]

theorem new_nil : TFIDFVectorizer.new [] = { vocabulary := [], word_to_index := [] } := rfl

/-- C12: for every reference corpus and every document that contains no
token (the empty string, or a string made only of spaces, periods and
commas), `tokenize` returns the empty list and `transform` returns the
all-zero vector whose length is the size of the vocabulary; neither fails. -/
theorem transform_without_tokens (profiles : List Str) (document : Str)
    (hdoc : ∀ c ∈ document, c = ' ' ∨ c = '.' ∨ c = ',') :
    TFIDFVectorizer.tokenize document = []
      ∧ (TFIDFVectorizer.new profiles).transform Real.log document
          = Except.ok { tfidf_values :=
              List.replicate (TFIDFVectorizer.new profiles).vocabulary.length 0 } := by
  have htok : TFIDFVectorizer.tokenize document = [] :=
    tokenizeLoop_separators document [] (fun c hc => (isSeparator_iff c).2 (hdoc c hc))
  exact ⟨htok, transform_no_tokens Real.log _ document htok⟩

/-- The instance of `transform_without_tokens` at the corpus `["cat dog"]`
and the document `" ., "`. -/
theorem transform_without_tokens_witness :
    TFIDFVectorizer.tokenize " ., ".toList = []
      ∧ (TFIDFVectorizer.new ["cat dog".toList]).transform Real.log " ., ".toList
          = Except.ok { tfidf_values :=
              List.replicate (TFIDFVectorizer.new ["cat dog".toList]).vocabulary.length 0 } :=
  transform_without_tokens ["cat dog".toList] " ., ".toList (by decide)

/-- C13 (refuted on the code): a vectorizer constructed from the empty list
of reference documents has an empty vocabulary and an empty index, and for
every document that contains at least one token `transform` on it throws
`std::out_of_range` instead of returning the zero-length vector. -/
theorem transform_empty_corpus_throws (document : Str)
    (htokens : TFIDFVectorizer.tokenize document ≠ []) :
    (TFIDFVectorizer.new []).vocabulary = []
      ∧ (TFIDFVectorizer.new []).word_to_index = []
      ∧ (TFIDFVectorizer.new []).transform Real.log document
          = Except.error Error.out_of_range := by
  refine ⟨rfl, rfl, ?_⟩
  obtain ⟨w, hw⟩ := List.exists_mem_of_ne_nil _ htokens
  exact transform_unseen Real.log [] document w hw (by simp [new_nil])

/-- The instance of `transform_empty_corpus_throws` at the document `"a"`. -/
theorem transform_empty_corpus_throws_witness :
    (TFIDFVectorizer.new []).vocabulary = []
      ∧ (TFIDFVectorizer.new []).word_to_index = []
      ∧ (TFIDFVectorizer.new []).transform Real.log "a".toList
          = Except.error Error.out_of_range :=
  transform_empty_corpus_throws "a".toList (by decide)

/-! ## The index invariant of the constructor -/

theorem nodup_keys_addWord (self : TFIDFVectorizer) (word : Str)
    (h : (self.word_to_index.map Prod.fst).Nodup) :
    ((addWord self word).word_to_index.map Prod.fst).Nodup := by
  unfold addWord
  split
  · exact UMap.nodup_keys_update _ _ _ h
  · exact h

theorem nodup_keys_foldl_addWord (words : List Str) (self : TFIDFVectorizer)
    (h : (self.word_to_index.map Prod.fst).Nodup) :
    ((words.foldl addWord self).word_to_index.map Prod.fst).Nodup := by
  induction words generalizing self with
  | nil => exact h
  | cons w ws ih => exact ih _ (nodup_keys_addWord self w h)

theorem indexInvariant_of_consistent {self : TFIDFVectorizer} (h : Consistent self)
    (hkeys : (self.word_to_index.map Prod.fst).Nodup) : IndexInvariant self := by
  refine ⟨?_, ?_, hkeys, ?_, ?_⟩
  · intro w
    rw [h.mem_vocabulary_iff w, Ne, UMap.find_eq_none_iff, not_not]
  · intro i hi
    rw [h.2]
    simp
  · intro w1 w2 i h1 h2
    have e1 := (h.2 w1 i).1 h1
    have e2 := (h.2 w2 i).1 h2
    rw [e1] at e2
    exact Option.some.inj e2
  · intro w i hf
    exact h.index_lt hf

theorem indexInvariant_foldl_addWord (words : List Str) :
    IndexInvariant (words.foldl addWord { vocabulary := [], word_to_index := [] }) :=
  indexInvariant_of_consistent (consistent_foldl_addWord words consistent_empty)
    (nodup_keys_foldl_addWord words _ (by simp))

/-- C15: after every execution of the body of the inner loop of the
constructor, after every reference document, and in the constructed object,
the keys of `word_to_index` are exactly the entries of `vocabulary`, the map
sends entry `i` of the vocabulary to `i`, every token has exactly one index,
the index map is injective, and every index is below the size of the
vocabulary. -/
theorem word_to_index_invariant (profiles : List Str) :
    (∀ k : Nat, IndexInvariant (constructorState profiles k))
      ∧ (∀ k : Nat, IndexInvariant ((profiles.take k).foldl addProfile
          { vocabulary := [], word_to_index := [] }))
      ∧ TFIDFVectorizer.new profiles
          = constructorState profiles (profiles.map TFIDFVectorizer.tokenize).flatten.length
      ∧ IndexInvariant (TFIDFVectorizer.new profiles) := by
  refine ⟨fun k => indexInvariant_foldl_addWord _, ?_, ?_, ?_⟩
  · intro k
    rw [foldl_addProfile_eq]
    exact indexInvariant_foldl_addWord _
  · rw [constructorState, List.take_length, new_eq_foldl_addWord]
  · rw [new_eq_foldl_addWord]
    exact indexInvariant_foldl_addWord _

/-! ## Signs of the weights -/

theorem transform_ok_spec {α : Type} [Field α] (log : α → α) (profiles : List Str)
    (document : Str) (v : TFIDFVector α)
    (h : (TFIDFVectorizer.new profiles).transform log document = Except.ok v) :
    v.tfidf_values.length = (TFIDFVectorizer.new profiles).vocabulary.length
      ∧ ∀ (i : Nat) (w : Str), (TFIDFVectorizer.new profiles).vocabulary[i]? = some w →
          v.tfidf_values[i]? = some (if (TFIDFVectorizer.tokenize document).count w = 0 then 0
            else (((TFIDFVectorizer.tokenize document).count w : Nat) : α)
                / (((TFIDFVectorizer.tokenize document).toFinset.card : Nat) : α)
              * log ((((TFIDFVectorizer.new profiles).vocabulary.length : Nat) : α)
                  / ((i + 1 : Nat) : α))) := by
  obtain ⟨out, hout, hlen, hentries⟩ :=
    transform_spec log profiles document (transform_ok_seen log profiles document v h)
  rw [hout] at h
  cases h
  exact ⟨hlen, hentries⟩

theorem idf_nonneg (V i : Nat) (hi : i < V) :
    1 ≤ ((V : Nat) : ℝ) / ((i + 1 : Nat) : ℝ)
      ∧ 0 ≤ Real.log (((V : Nat) : ℝ) / ((i + 1 : Nat) : ℝ)) := by
  have hpos : (0 : ℝ) < ((i + 1 : Nat) : ℝ) := by exact_mod_cast Nat.succ_pos i
  have hle : ((i + 1 : Nat) : ℝ) ≤ ((V : Nat) : ℝ) := by exact_mod_cast hi
  have h1 : 1 ≤ ((V : Nat) : ℝ) / ((i + 1 : Nat) : ℝ) := (one_le_div hpos).2 hle
  exact ⟨h1, Real.log_nonneg h1⟩

theorem transform_nonneg (profiles : List Str) (document : Str) (v : TFIDFVector ℝ)
    (h : (TFIDFVectorizer.new profiles).transform Real.log document = Except.ok v) :
    ∀ x ∈ v.tfidf_values, 0 ≤ x := by
  obtain ⟨hlen, hentries⟩ := transform_ok_spec Real.log profiles document v h
  intro x hx
  obtain ⟨i, hi⟩ := List.mem_iff_getElem?.1 hx
  have hilt : i < (TFIDFVectorizer.new profiles).vocabulary.length := by
    rw [← hlen]
    by_contra hc
    rw [List.getElem?_eq_none (Nat.le_of_not_lt hc)] at hi
    cases hi
  have hw : (TFIDFVectorizer.new profiles).vocabulary[i]?
      = some ((TFIDFVectorizer.new profiles).vocabulary.get ⟨i, hilt⟩) := by
    simp
  rw [hentries i _ hw] at hi
  have hx2 := Option.some.inj hi
  rw [← hx2]
  split
  · exact le_refl 0
  · exact mul_nonneg (div_nonneg (Nat.cast_nonneg _) (Nat.cast_nonneg _))
      (idf_nonneg _ i hilt).2

theorem dot_nonneg (xs ys : List ℝ) (hx : ∀ x ∈ xs, 0 ≤ x) (hy : ∀ y ∈ ys, 0 ≤ y) :
    0 ≤ (List.zipWith (fun x y => x * y) xs ys).sum := by
  induction xs generalizing ys with
  | nil => simp
  | cons x xs ih =>
    cases ys with
    | nil => simp
    | cons y ys =>
      simp only [List.zipWith_cons_cons, List.sum_cons]
      have h1 : 0 ≤ x * y :=
        mul_nonneg (hx x (List.mem_cons_self _ _)) (hy y (List.mem_cons_self _ _))
      have h2 := ih ys (fun a ha => hx a (List.mem_cons_of_mem _ ha))
        (fun b hb => hy b (List.mem_cons_of_mem _ hb))
      linarith

/-- The bound on the score of two `transform` outputs in exact arithmetic:
over the reals, for every reference corpus and every two documents on which
`transform` succeeds with the same vectorizer, every entry of the two
resulting vectors is non-negative, and `cosine_similarity` of the two
vectors returns a value in `[0, 1]`.  The upper bound rests on
`sqrt x * sqrt x = x`, which holds for the real square root and not for a
rounded one, so this is not a statement about the `double` values of the
compiled program. -/
theorem cosine_similarity_transform_mem_Icc (profiles : List Str) (document1 document2 : Str)
    (v1 v2 : TFIDFVector ℝ)
    (h1 : (TFIDFVectorizer.new profiles).transform Real.log document1 = Except.ok v1)
    (h2 : (TFIDFVectorizer.new profiles).transform Real.log document2 = Except.ok v2) :
    (∀ x ∈ v1.tfidf_values, 0 ≤ x) ∧ (∀ x ∈ v2.tfidf_values, 0 ≤ x)
      ∧ ∃ score : ℝ, cosine_similarity Real.sqrt v1 v2 = Except.ok score
          ∧ 0 ≤ score ∧ score ≤ 1 := by
  have hn1 := transform_nonneg profiles document1 v1 h1
  have hn2 := transform_nonneg profiles document2 v2 h2
  have hl1 := (transform_ok_spec Real.log profiles document1 v1 h1).1
  have hl2 := (transform_ok_spec Real.log profiles document2 v2 h2).1
  obtain ⟨score, hs, _, hhi, hlo⟩ := cosine_similarity_bounds v1 v2 (hl1.trans hl2.symm)
  exact ⟨hn1, hn2, score, hs, hlo (dot_nonneg _ _ hn1 hn2), hhi⟩

/-- The instance of `cosine_similarity_transform_mem_Icc` at the corpus
`["cat dog", "dog bird"]` and the documents `"dog cat dog"` and `"cat bird"`,
on both of which `transform` succeeds; exact arithmetic as well. -/
theorem cosine_similarity_transform_mem_Icc_witness :
    ∃ v1 v2 : TFIDFVector ℝ,
      (TFIDFVectorizer.new ["cat dog".toList, "dog bird".toList]).transform Real.log
          "dog cat dog".toList = Except.ok v1
      ∧ (TFIDFVectorizer.new ["cat dog".toList, "dog bird".toList]).transform Real.log
          "cat bird".toList = Except.ok v2
      ∧ (∀ x ∈ v1.tfidf_values, 0 ≤ x) ∧ (∀ x ∈ v2.tfidf_values, 0 ≤ x)
      ∧ ∃ score : ℝ, cosine_similarity Real.sqrt v1 v2 = Except.ok score
          ∧ 0 ≤ score ∧ score ≤ 1 := by
  obtain ⟨o1, h1, _⟩ := transform_spec Real.log ["cat dog".toList, "dog bird".toList]
    "dog cat dog".toList (by decide)
  obtain ⟨o2, h2, _⟩ := transform_spec Real.log ["cat dog".toList, "dog bird".toList]
    "cat bird".toList (by decide)
  exact ⟨_, _, h1, h2, cosine_similarity_transform_mem_Icc
    ["cat dog".toList, "dog bird".toList] "dog cat dog".toList "cat bird".toList _ _ h1 h2⟩

/-- C17 (as stated, refuted): no reference corpus and no document make
`transform` return a strictly negative entry, and no vocabulary index `i`
gives a ratio `V / (i + 1)` below `1`. -/
theorem no_negative_tfidf_entry :
    (¬ ∃ (profiles : List Str) (document : Str) (v : TFIDFVector ℝ) (x : ℝ),
        (TFIDFVectorizer.new profiles).transform Real.log document = Except.ok v
          ∧ x ∈ v.tfidf_values ∧ x < 0)
      ∧ (¬ ∃ (profiles : List Str) (i : Nat),
          i < (TFIDFVectorizer.new profiles).vocabulary.length
            ∧ (((TFIDFVectorizer.new profiles).vocabulary.length : Nat) : ℝ)
                / ((i + 1 : Nat) : ℝ) < 1) := by
  constructor
  · rintro ⟨profiles, document, v, x, h, hx, hneg⟩
    exact absurd (transform_nonneg profiles document v h x hx) (not_le.2 hneg)
  · rintro ⟨profiles, i, hi, hlt⟩
    exact absurd (idf_nonneg _ i hi).1 (not_le.2 hlt)

/-- C17 (amended): for every reference corpus, every vocabulary index `i` is
below the size `V` of the vocabulary, so the ratio `V / (i + 1)` is at least
`1` and `idf = ln (V / (i + 1))` is non-negative; hence for every document on
which `transform` succeeds every entry of the result is non-negative. -/
theorem tfidf_entries_nonneg (profiles : List Str) (document : Str) (v : TFIDFVector ℝ)
    (h : (TFIDFVectorizer.new profiles).transform Real.log document = Except.ok v) :
    (∀ (w : Str) (i : Nat), (TFIDFVectorizer.new profiles).word_to_index.find w = some i →
        i < (TFIDFVectorizer.new profiles).vocabulary.length
          ∧ 1 ≤ (((TFIDFVectorizer.new profiles).vocabulary.length : Nat) : ℝ)
                / ((i + 1 : Nat) : ℝ)
          ∧ 0 ≤ Real.log ((((TFIDFVectorizer.new profiles).vocabulary.length : Nat) : ℝ)
                / ((i + 1 : Nat) : ℝ)))
      ∧ ∀ x ∈ v.tfidf_values, 0 ≤ x := by
  refine ⟨?_, transform_nonneg profiles document v h⟩
  intro w i hf
  have hi := (consistent_new profiles).index_lt hf
  exact ⟨hi, idf_nonneg _ i hi⟩

/-- The instance of `tfidf_entries_nonneg` at the corpus `["cat dog", "dog
bird"]` and the document `"bird dog"`, on which `transform` succeeds. -/
theorem tfidf_entries_nonneg_witness :
    ∃ v : TFIDFVector ℝ,
      (TFIDFVectorizer.new ["cat dog".toList, "dog bird".toList]).transform Real.log
          "bird dog".toList = Except.ok v
      ∧ ∀ x ∈ v.tfidf_values, 0 ≤ x := by
  obtain ⟨o, h, _⟩ := transform_spec Real.log ["cat dog".toList, "dog bird".toList]
    "bird dog".toList (by decide)
  exact ⟨_, h, (tfidf_entries_nonneg ["cat dog".toList, "dog bird".toList]
    "bird dog".toList _ h).2⟩

/-! ## The last vocabulary index -/

theorem transform_last_zero (profiles : List Str) (document : Str) (v : TFIDFVector ℝ)
    (hV : (TFIDFVectorizer.new profiles).vocabulary ≠ [])
    (h : (TFIDFVectorizer.new profiles).transform Real.log document = Except.ok v) :
    v.tfidf_values[(TFIDFVectorizer.new profiles).vocabulary.length - 1]? = some 0 := by
  obtain ⟨_, hentries⟩ := transform_ok_spec Real.log profiles document v h
  have hpos : 0 < (TFIDFVectorizer.new profiles).vocabulary.length :=
    List.length_pos.2 hV
  have hlt : (TFIDFVectorizer.new profiles).vocabulary.length - 1
      < (TFIDFVectorizer.new profiles).vocabulary.length := by omega
  have hw : (TFIDFVectorizer.new profiles).vocabulary[
        (TFIDFVectorizer.new profiles).vocabulary.length - 1]?
      = some ((TFIDFVectorizer.new profiles).vocabulary.get ⟨_, hlt⟩) := by
    simp
  rw [hentries _ _ hw]
  have hsucc : (TFIDFVectorizer.new profiles).vocabulary.length - 1 + 1
      = (TFIDFVectorizer.new profiles).vocabulary.length := by omega
  have hne : (((TFIDFVectorizer.new profiles).vocabulary.length : Nat) : ℝ) ≠ 0 := by
    exact_mod_cast (Nat.pos_iff_ne_zero.1 hpos)
  rw [hsucc, div_self hne, Real.log_one, mul_zero]
  simp

theorem cosine_similarity_left_zero (a b : TFIDFVector ℝ)
    (hlen : a.tfidf_values.length = b.tfidf_values.length)
    (hzero : ∀ x ∈ a.tfidf_values, x = 0) :
    cosine_similarity Real.sqrt a b = Except.ok 0 := by
  rw [cosine_similarity_eq _ _ _ hlen, if_pos (Or.inl ((sum_sq_eq_zero_iff _).2 hzero))]

/-- C19: for every reference corpus with a non-empty vocabulary of size `V`
and every document on which `transform` succeeds, the entry at the last
vocabulary index `V - 1` is `0`.  When the vocabulary has exactly one word,
the output is the zero vector `[0]`, and `cosine_similarity` of it with any
`transform` output of the same vectorizer, itself included, is `0`. -/
theorem transform_last_entry_zero (profiles : List Str) (document : Str)
    (v : TFIDFVector ℝ)
    (hV : (TFIDFVectorizer.new profiles).vocabulary ≠ [])
    (h : (TFIDFVectorizer.new profiles).transform Real.log document = Except.ok v) :
    v.tfidf_values[(TFIDFVectorizer.new profiles).vocabulary.length - 1]? = some 0
      ∧ ((TFIDFVectorizer.new profiles).vocabulary.length = 1 →
          v.tfidf_values = [0]
            ∧ cosine_similarity Real.sqrt v v = Except.ok 0
            ∧ ∀ (document2 : Str) (v2 : TFIDFVector ℝ),
                (TFIDFVectorizer.new profiles).transform Real.log document2 = Except.ok v2 →
                cosine_similarity Real.sqrt v v2 = Except.ok 0) := by
  have hlast := transform_last_zero profiles document v hV h
  refine ⟨hlast, ?_⟩
  intro hone
  have hlen := (transform_ok_spec Real.log profiles document v h).1
  rw [hone] at hlast hlen
  have hv : v.tfidf_values = [0] := by
    match hvals : v.tfidf_values with
    | [] => simp [hvals] at hlen
    | [x] =>
      rw [hvals] at hlast
      simp at hlast
      rw [hlast]
    | _ :: _ :: _ => simp [hvals] at hlen
  have hzero : ∀ x ∈ v.tfidf_values, x = 0 := by
    rw [hv]
    simp
  refine ⟨hv, cosine_similarity_left_zero v v rfl hzero, ?_⟩
  intro document2 v2 h2
  have hlen2 := (transform_ok_spec Real.log profiles document2 v2 h2).1
  rw [hone] at hlen2
  exact cosine_similarity_left_zero v v2 (hlen.trans hlen2.symm) hzero

/-- The instance of `transform_last_entry_zero` at the corpus `["cat cat"]`,
whose vocabulary is the single word `"cat"`, and the document `"cat"`. -/
theorem transform_last_entry_zero_witness :
    ∃ v : TFIDFVector ℝ,
      (TFIDFVectorizer.new ["cat cat".toList]).transform Real.log "cat".toList = Except.ok v
      ∧ v.tfidf_values = [0]
      ∧ cosine_similarity Real.sqrt v v = Except.ok 0 := by
  obtain ⟨o, h, _⟩ := transform_spec Real.log ["cat cat".toList] "cat".toList (by decide)
  have hthm := transform_last_entry_zero ["cat cat".toList] "cat".toList _ (by decide) h
  exact ⟨_, h, (hthm.2 (by decide)).1, (hthm.2 (by decide)).2.1⟩

/-! ## Independence of the visiting order of `term_frequency` -/

theorem UMap.mem_of_find (m : UMap) (k : Str) (v : Nat) (h : m.find k = some v) :
    (k, v) ∈ m := by
  induction m with
  | nil => simp [UMap.find] at h
  | cons p m ih =>
    obtain ⟨a, w⟩ := p
    by_cases hk : k = a
    · simp [UMap.find, hk] at h
      simp [hk, h]
    · simp [UMap.find, hk] at h
      exact List.mem_cons_of_mem _ (ih h)

theorem UMap.find_perm (m order : UMap) (k : Str) (hkeys : (m.map Prod.fst).Nodup)
    (hperm : order.Perm m) : UMap.find order k = UMap.find m k := by
  have hkeys2 : (order.map Prod.fst).Nodup := ((hperm.map Prod.fst).nodup_iff).2 hkeys
  cases hf : UMap.find m k with
  | none =>
    rw [UMap.find_eq_none_iff] at hf ⊢
    intro hc
    exact hf (((hperm.map Prod.fst).mem_iff).1 hc)
  | some v =>
    exact UMap.find_of_mem order k v hkeys2 (hperm.mem_iff.2 (UMap.mem_of_find m k v hf))

theorem tfidfLoop_perm {α : Type} [Field α] (log : α → α) {self : TFIDFVectorizer}
    (h : Consistent self) (size : Nat) (pairs order : List (Str × Nat)) (values : List α)
    (hlen : values.length = self.vocabulary.length)
    (hkeys : (pairs.map Prod.fst).Nodup) (hperm : order.Perm pairs) :
    tfidfLoop log self size order values = tfidfLoop log self size pairs values := by
  have hkeys2 : (order.map Prod.fst).Nodup := ((hperm.map Prod.fst).nodup_iff).2 hkeys
  by_cases hex : ∃ pair ∈ pairs, self.word_to_index.find pair.1 = none
  · have hex2 : ∃ pair ∈ order, self.word_to_index.find pair.1 = none := by
      obtain ⟨pair, hp, hnone⟩ := hex
      exact ⟨pair, hperm.mem_iff.2 hp, hnone⟩
    rw [tfidfLoop_unseen log h size pairs values hlen hex,
      tfidfLoop_unseen log h size order values hlen hex2]
  · have hseen : ∀ pair ∈ pairs, pair.1 ∈ self.vocabulary := by
      intro pair hp
      rw [h.mem_vocabulary_iff]
      intro hnone
      exact hex ⟨pair, hp, hnone⟩
    have hseen2 : ∀ pair ∈ order, pair.1 ∈ self.vocabulary :=
      fun pair hp => hseen pair (hperm.mem_iff.1 hp)
    obtain ⟨out1, ho1, hl1, he1⟩ := tfidfLoop_spec log h size pairs values hlen hkeys hseen
    obtain ⟨out2, ho2, hl2, he2⟩ := tfidfLoop_spec log h size order values hlen hkeys2 hseen2
    rw [ho1, ho2]
    congr 1
    apply List.ext_getElem?
    intro n
    by_cases hn : n < self.vocabulary.length
    · have hw : self.vocabulary[n]? = some (self.vocabulary.get ⟨n, hn⟩) := by simp
      rw [he1 n _ hw, he2 n _ hw, UMap.find_perm pairs order _ hkeys hperm]
    · have hle := Nat.le_of_not_lt hn
      rw [List.getElem?_eq_none (by omega), List.getElem?_eq_none (by omega)]

/-- C20: the result of `transform` does not depend on the order in which the
entries of `term_frequency` are visited: for every reference corpus, every
document and every permutation of the (term, count) pairs, the loop that
writes `tf * idf` gives the same result as on the original order, which is
the result of `transform`; distinct terms have distinct vocabulary
indices. -/
theorem transform_order_independent (profiles : List Str) (document : Str)
    (order : List (Str × Nat))
    (hperm : order.Perm ((TFIDFVectorizer.tokenize document).foldl countWord [])) :
    tfidfLoop Real.log (TFIDFVectorizer.new profiles)
        ((TFIDFVectorizer.tokenize document).foldl countWord []).length order
        (List.replicate (TFIDFVectorizer.new profiles).vocabulary.length 0)
      = tfidfLoop Real.log (TFIDFVectorizer.new profiles)
          ((TFIDFVectorizer.tokenize document).foldl countWord []).length
          ((TFIDFVectorizer.tokenize document).foldl countWord [])
          (List.replicate (TFIDFVectorizer.new profiles).vocabulary.length 0)
    ∧ (TFIDFVectorizer.new profiles).transform Real.log document
      = (match tfidfLoop Real.log (TFIDFVectorizer.new profiles)
            ((TFIDFVectorizer.tokenize document).foldl countWord []).length order
            (List.replicate (TFIDFVectorizer.new profiles).vocabulary.length 0) with
          | Except.error e => Except.error e
          | Except.ok written => Except.ok { tfidf_values := written })
    ∧ ∀ (w1 w2 : Str) (i j : Nat),
        (TFIDFVectorizer.new profiles).word_to_index.find w1 = some i →
        (TFIDFVectorizer.new profiles).word_to_index.find w2 = some j →
        w1 ≠ w2 → i ≠ j := by
  have hc := consistent_new profiles
  have hkeys := nodup_keys_foldl_countWord (TFIDFVectorizer.tokenize document) [] (by simp)
  have hloop := tfidfLoop_perm Real.log hc
    ((TFIDFVectorizer.tokenize document).foldl countWord []).length
    ((TFIDFVectorizer.tokenize document).foldl countWord []) order
    (List.replicate (TFIDFVectorizer.new profiles).vocabulary.length (0 : ℝ))
    (by simp) hkeys hperm
  refine ⟨hloop, ?_, ?_⟩
  · rw [hloop]
    unfold TFIDFVectorizer.transform
    simp only
    cases tfidfLoop Real.log (TFIDFVectorizer.new profiles)
      ((TFIDFVectorizer.tokenize document).foldl countWord []).length
      ((TFIDFVectorizer.tokenize document).foldl countWord [])
      (List.replicate (TFIDFVectorizer.new profiles).vocabulary.length (0 : ℝ)) <;> rfl
  · intro w1 w2 i j h1 h2 hne hij
    subst hij
    have e1 := (hc.2 w1 i).1 h1
    have e2 := (hc.2 w2 i).1 h2
    rw [e1] at e2
    exact hne (Option.some.inj e2)

/-- The instance of `transform_order_independent` at the corpus `["cat dog",
"dog bird"]` and the document `"dog cat dog"`, whose term-frequency table
`[("dog", 2), ("cat", 1)]` is visited in the order `[("cat", 1), ("dog", 2)]`. -/
theorem transform_order_independent_witness :
    tfidfLoop Real.log (TFIDFVectorizer.new ["cat dog".toList, "dog bird".toList])
        ((TFIDFVectorizer.tokenize "dog cat dog".toList).foldl countWord []).length
        [("cat".toList, 1), ("dog".toList, 2)]
        (List.replicate
          (TFIDFVectorizer.new ["cat dog".toList, "dog bird".toList]).vocabulary.length 0)
      = tfidfLoop Real.log (TFIDFVectorizer.new ["cat dog".toList, "dog bird".toList])
          ((TFIDFVectorizer.tokenize "dog cat dog".toList).foldl countWord []).length
          ((TFIDFVectorizer.tokenize "dog cat dog".toList).foldl countWord [])
          (List.replicate
            (TFIDFVectorizer.new ["cat dog".toList, "dog bird".toList]).vocabulary.length 0) :=
  (transform_order_independent ["cat dog".toList, "dog bird".toList] "dog cat dog".toList
    [("cat".toList, 1), ("dog".toList, 2)]
    (by
      have htf : (TFIDFVectorizer.tokenize "dog cat dog".toList).foldl countWord []
          = [("dog".toList, 2), ("cat".toList, 1)] := by decide
      rw [htf]
      exact List.Perm.swap _ _ _)).1
